import Mathlib

/-!
# Byte-pair encoding tokenizer: a shallow embedding

This file embeds the BPE tokenizer of `src/lectures/01-tokenization.ipynb`:
the pure function `merge`, the trainer `train_bpe` (frequency counting with a
defaultdict, `max(counts, key=counts.get)` selection, sequential assignment of
new token ids starting at 256), and `BPETokenizer.encode` / `decode`.

Python dictionaries preserve insertion order and look up by key; they are
embedded as association lists (`dictGet` / `dictInsert`).  Python's
`max(counts, key=counts.get)` returns the first key attaining the maximal
value in iteration (= insertion) order; it raises `ValueError` on an empty
mapping, so the trainer is embedded with an `Option` result (`none` = the
Python code raises).  Strings are lists of unicode scalar values (`Char`);
`str.encode("utf-8")` / `bytes.decode("utf-8")` are embedded by an explicit
UTF-8 codec over byte values represented as `Nat`.
-/

/-- Insertion-ordered dictionary lookup: first entry whose key matches. -/
def dictGet {κ α : Type} [DecidableEq κ] : List (κ × α) → κ → Option α
  | [], _ => none
  | (k, v) :: rest, t => if k = t then some v else dictGet rest t

/-- Insertion-ordered dictionary update `d[k] = v`: overwrite in place if the
key is present, otherwise append at the end (Python dict semantics). -/
def dictInsert {κ α : Type} [DecidableEq κ] : List (κ × α) → κ → α → List (κ × α)
  | [], k, v => [(k, v)]
  | (k', v') :: rest, k, v =>
    if k' = k then (k', v) :: rest else (k', v') :: dictInsert rest k v

/-- UTF-8 encoding of a single unicode scalar value (Python `chr(n).encode`). -/
def utf8EncodeChar (n : Nat) : List Nat :=
  if n < 128 then [n]
  else if n < 2048 then [192 + n / 64, 128 + n % 64]
  else if n < 65536 then [224 + n / 4096, 128 + (n / 64) % 64, 128 + n % 64]
  else [240 + n / 262144, 128 + (n / 4096) % 64, 128 + (n / 64) % 64, 128 + n % 64]

/-- `string.encode("utf-8")` as a list of byte values. -/
def strToBytes (s : List Char) : List Nat :=
  (s.map (fun c => utf8EncodeChar c.toNat)).flatten

/-- Is `b` a UTF-8 continuation byte `10xxxxxx`? -/
def contByte (b : Nat) : Prop := 128 ≤ b ∧ b < 192

instance (b : Nat) : Decidable (contByte b) := by unfold contByte; infer_instance

/-- Strict UTF-8 decoding of one scalar value from the front of a byte list:
returns the code point and the remaining bytes.  Rejects continuation bytes in
lead position, truncated sequences, overlong encodings, surrogates and code
points above `0x10FFFF`, as Python's `bytes.decode("utf-8")` does. -/
def utf8DecodeChar : List Nat → Option (Nat × List Nat)
  | [] => none
  | b :: bs =>
    if b < 128 then some (b, bs)
    else if b < 192 then none
    else if b < 224 then
      match bs with
      | b2 :: rest =>
        if contByte b2 then
          let n := (b - 192) * 64 + (b2 - 128)
          if 128 ≤ n then some (n, rest) else none
        else none
      | [] => none
    else if b < 240 then
      match bs with
      | b2 :: b3 :: rest =>
        if contByte b2 ∧ contByte b3 then
          let n := (b - 224) * 4096 + (b2 - 128) * 64 + (b3 - 128)
          if 2048 ≤ n ∧ ¬ (55296 ≤ n ∧ n < 57344) then some (n, rest) else none
        else none
      | _ => none
    else if b < 248 then
      match bs with
      | b2 :: b3 :: b4 :: rest =>
        if contByte b2 ∧ contByte b3 ∧ contByte b4 then
          let n := (b - 240) * 262144 + (b2 - 128) * 4096 + (b3 - 128) * 64 + (b4 - 128)
          if 65536 ≤ n ∧ n < 1114112 then some (n, rest) else none
        else none
      | _ => none
    else none

/-- Fuelled UTF-8 decoding loop; each scalar consumes at least one byte, so
fuel `l.length` always suffices. -/
def utf8DecodeFuel : Nat → List Nat → Option (List Char)
  | _, [] => some []
  | 0, _ :: _ => none
  | fuel + 1, b :: bs =>
    match utf8DecodeChar (b :: bs) with
    | some (n, rest) =>
      match utf8DecodeFuel fuel rest with
      | some cs => some (Char.ofNat n :: cs)
      | none => none
    | none => none

/-- `bytes.decode("utf-8")`: `none` models Python's `UnicodeDecodeError`. -/
def utf8Decode (l : List Nat) : Option (List Char) :=
  utf8DecodeFuel l.length l

/-- The tokenizer parameters: `vocab : index -> bytes` and
`merges : (index1, index2) -> new_index`, both insertion-ordered dicts
(`BPETokenizerParams` in the source). -/
structure BPETokenizerParams where
  vocab : List (Nat × List Nat)
  merges : List ((Nat × Nat) × Nat)
  deriving DecidableEq, Repr

/-- The source's `merge(indices, pair, new_index)`: one left-to-right pass; on
a match of two adjacent elements with `pair` emit `newIndex` and advance by
two, otherwise keep the current element and advance by one. -/
def merge (indices : List Nat) (pair : Nat × Nat) (newIndex : Nat) : List Nat :=
  match indices with
  | i1 :: i2 :: rest =>
    if i1 = pair.1 ∧ i2 = pair.2 then newIndex :: merge rest pair newIndex
    else i1 :: merge (i2 :: rest) pair newIndex
  | other => other

/-- The adjacent pairs `zip(indices, indices[1:])` scanned by the counting
pass, in scan order. -/
def adjacentPairs : List Nat → List (Nat × Nat)
  | a :: b :: rest => (a, b) :: adjacentPairs (b :: rest)
  | _ => []

/-- `counts[p] += 1` on an insertion-ordered counting dict (`defaultdict(int)`
semantics: a fresh key starts at zero and is appended at the end). -/
def bump (counts : List ((Nat × Nat) × Nat)) (p : Nat × Nat) :
    List ((Nat × Nat) × Nat) :=
  match counts with
  | [] => [(p, 1)]
  | (q, c) :: rest => if q = p then (q, c + 1) :: rest else (q, c) :: bump rest p

/-- The counting pass of `train_bpe`: frequency of every adjacent pair, keys
in first-occurrence order. -/
def countPairs (indices : List Nat) : List ((Nat × Nat) × Nat) :=
  (adjacentPairs indices).foldl bump []

/-- The scan of Python's `max` over a non-empty iterator: keep the current
best, replace it only on a strictly larger key value (so the first of several
tied maxima wins). -/
def maxPairGo (best : Nat × Nat) (bc : Nat) :
    List ((Nat × Nat) × Nat) → Nat × Nat
  | [] => best
  | (p, c) :: rest => if bc < c then maxPairGo p c rest else maxPairGo best bc rest

/-- `max(counts, key=counts.get)`: `none` models the `ValueError` Python
raises on an empty mapping. -/
def maxPair : List ((Nat × Nat) × Nat) → Option (Nat × Nat)
  | [] => none
  | (p, c) :: rest => some (maxPairGo p c rest)

/-- The mutable state of the training loop in `train_bpe`. -/
structure TrainState where
  indices : List Nat
  merges : List ((Nat × Nat) × Nat)
  vocab : List (Nat × List Nat)
  deriving DecidableEq, Repr

/-- `vocab = {x: bytes([x]) for x in range(256)}`. -/
def baseVocab : List (Nat × List Nat) :=
  (List.range 256).map (fun x => (x, [x]))

/-- The state entering the training loop: byte-valued tokens of the corpus,
no merges, the 256-entry base vocabulary. -/
def initState (corpus : List Char) : TrainState :=
  ⟨strToBytes corpus, [], baseVocab⟩

/-- One iteration of the `for i in range(num_merges)` loop of `train_bpe`:
count pairs, pick the max (raising — `none` — if no pair exists), record the
rule, extend the vocabulary, rewrite the sequence.  The vocabulary lookups
model Python's `vocab[index1]`, `vocab[index2]` (a `KeyError` is `none`). -/
def trainStep (st : TrainState) (i : Nat) : Option TrainState :=
  match maxPair (countPairs st.indices) with
  | none => none
  | some pair =>
    match dictGet st.vocab pair.1, dictGet st.vocab pair.2 with
    | some v1, some v2 =>
      let newIndex := 256 + i
      some ⟨merge st.indices pair newIndex,
            dictInsert st.merges pair newIndex,
            dictInsert st.vocab newIndex (v1 ++ v2)⟩
    | _, _ => none

/-- The training loop, running `count` iterations starting at counter `i`. -/
def trainLoop (st : TrainState) (i : Nat) : Nat → Option TrainState
  | 0 => some st
  | count + 1 => (trainStep st i).bind fun st' => trainLoop st' (i + 1) count

/-- `train_bpe(string, num_merges)`; `none` models an uncaught exception. -/
def train_bpe (corpus : List Char) (numMerges : Nat) : Option BPETokenizerParams :=
  (trainLoop (initState corpus) 0 numMerges).map fun st => ⟨st.vocab, st.merges⟩

/-- `for pair, new_index in merges.items(): indices = merge(indices, ...)`. -/
def applyMerges (rules : List ((Nat × Nat) × Nat)) (indices : List Nat) : List Nat :=
  rules.foldl (fun acc e => merge acc e.1 e.2) indices

/-- `BPETokenizer.encode`: UTF-8 bytes of the string, then every merge rule
applied once, in insertion order. -/
def encode (params : BPETokenizerParams) (s : List Char) : List Nat :=
  applyMerges params.merges (strToBytes s)

/-- The two failure modes of `BPETokenizer.decode`: a vocabulary miss
(`vocab.get` returns `None` and `b"".join` raises a `TypeError`) and invalid
UTF-8 (`bytes.decode` raises a `UnicodeDecodeError`). -/
inductive DecodeErr where
  | unknownToken : DecodeErr
  | decodeError : DecodeErr
  deriving DecidableEq, Repr

/-- `list(map(vocab.get, indices))` combined with the check `b"".join`
performs: `none` as soon as some token is absent from the vocabulary. -/
def lookupAll (vocab : List (Nat × List Nat)) : List Nat → Option (List (List Nat))
  | [] => some []
  | t :: ts =>
    match dictGet vocab t, lookupAll vocab ts with
    | some v, some rest => some (v :: rest)
    | _, _ => none

/-- The byte string represented by a token sequence: the concatenation of the
vocabulary expansions of its tokens (when they all exist). -/
def expand (vocab : List (Nat × List Nat)) (indices : List Nat) : Option (List Nat) :=
  (lookupAll vocab indices).map List.flatten

/-- `BPETokenizer.decode`: look every token up in the vocabulary, concatenate
the byte expansions, UTF-8-decode the result. -/
def decode (params : BPETokenizerParams) (indices : List Nat) :
    Except DecodeErr (List Char) :=
  match lookupAll params.vocab indices with
  | none => Except.error DecodeErr.unknownToken
  | some bls =>
    match utf8Decode bls.flatten with
    | none => Except.error DecodeErr.decodeError
    | some s => Except.ok s

/-- Modelled from the spec (§4.2): the reference single left-to-right pass of
`PairMerger.merge`, written with an explicit cursor `i` into the input, fuel
bounding the number of loop iterations: on a match of the elements at `i` and
`i + 1` emit the new token and advance the cursor by two, otherwise emit the
element at `i` and advance by one. -/
def mergeSpecGo (indices : List Nat) (p : Nat × Nat) (n : Nat) :
    Nat → Nat → List Nat
  | 0, _ => []
  | fuel + 1, i =>
    match indices[i]?, indices[i + 1]? with
    | some a, some b =>
      if a = p.1 ∧ b = p.2 then n :: mergeSpecGo indices p n fuel (i + 2)
      else a :: mergeSpecGo indices p n fuel (i + 1)
    | some a, none => a :: mergeSpecGo indices p n fuel (i + 1)
    | none, _ => []

/-- Modelled from the spec (§4.2): the full reference pass, cursor starting at
zero; `indices.length` iterations always suffice since the cursor advances at
every step. -/
def mergeSpec (indices : List Nat) (p : Nat × Nat) (n : Nat) : List Nat :=
  mergeSpecGo indices p n indices.length 0

/-- The first-occurrence insertion used to describe Python dict key order:
append a key at the end unless it is already present. -/
def insertLast (acc : List (Nat × Nat)) (x : Nat × Nat) : List (Nat × Nat) :=
  if x ∈ acc then acc else acc ++ [x]

/-- The number of occurrences of `q` in a list of pairs. -/
def countIn (l : List (Nat × Nat)) (q : Nat × Nat) : Nat :=
  match l with
  | [] => 0
  | x :: xs => (if x = q then 1 else 0) + countIn xs q

/-- The position of the first occurrence of `q` in a list of pairs (the list
length if absent). -/
def firstIdx (l : List (Nat × Nat)) (q : Nat × Nat) : Nat :=
  match l with
  | [] => 0
  | x :: xs => if x = q then 0 else firstIdx xs q + 1

/-- The count a counting dict assigns to `q` (zero when absent, matching
`defaultdict(int)`). -/
def cntOf (c : List ((Nat × Nat) × Nat)) (q : Nat × Nat) : Nat :=
  (dictGet c q).getD 0

/-- The invariants the training state satisfies on entry to loop iteration
`i`, for a corpus whose UTF-8 byte string is `B`: the vocabulary keys are
exactly `0, …, 255 + i` in insertion order, byte tokens expand to themselves,
all live tokens are in range, the recorded merge rules have distinct pairs,
fresh increasing targets built by concatenation of existing expansions, no
recorded pair still occurs adjacently, and the expansion of the current
sequence is the corpus byte string. -/
structure GoodState (B : List Nat) (i : Nat) (st : TrainState) : Prop where
  vocab_keys : st.vocab.map Prod.fst = List.range (256 + i)
  vocab_base : ∀ t, t < 256 → dictGet st.vocab t = some [t]
  indices_lt : ∀ t ∈ st.indices, t < 256 + i
  merges_snd : st.merges.map Prod.snd = List.range' 256 i
  merges_lt : ∀ e ∈ st.merges, e.1.1 < e.2 ∧ e.1.2 < e.2 ∧ e.2 < 256 + i
  merges_vocab : ∀ e ∈ st.merges, ∃ va vb, dictGet st.vocab e.1.1 = some va ∧
    dictGet st.vocab e.1.2 = some vb ∧ dictGet st.vocab e.2 = some (va ++ vb)
  merges_nodup : (st.merges.map Prod.fst).Nodup
  merges_unused : ∀ e ∈ st.merges, e.1 ∉ adjacentPairs st.indices
  expand_eq : expand st.vocab st.indices = some B

/-- The training state after one merge step on the corpus `"aa"` (bytes
`[97, 97]`): used as a concrete input by witnesses. -/
def demoState : TrainState :=
  ⟨[256], [((97, 97), 256)], baseVocab ++ [(256, [97, 97])]⟩

/-- The parameters `train_bpe "aa" 1` produces: used by witnesses. -/
def demoParams : BPETokenizerParams :=
  ⟨baseVocab ++ [(256, [97, 97])], [((97, 97), 256)]⟩

theorem mergeSpecGo_eq_merge (indices : List Nat) (p : Nat × Nat) (n : Nat) :
    ∀ (fuel i : Nat), indices.length ≤ fuel + i →
      mergeSpecGo indices p n fuel i = merge (indices.drop i) p n := by
  intro fuel
  induction fuel with
  | zero =>
    intro i hi
    rw [List.drop_eq_nil_of_le (by omega)]
    rfl
  | succ fuel ih =>
    intro i hi
    have h0 : indices[i]? = (indices.drop i)[0]? := by
      rw [List.getElem?_drop, Nat.add_zero]
    have h1 : indices[i + 1]? = (indices.drop i)[1]? := by
      rw [List.getElem?_drop]
    have hd1 : indices.drop (i + 1) = (indices.drop i).drop 1 := by
      rw [List.drop_drop]
    have hd2 : indices.drop (i + 2) = (indices.drop i).drop 2 := by
      rw [List.drop_drop]
    match hdrop : indices.drop i with
    | [] =>
      rw [hdrop] at h0
      have h0' : indices[i]? = none := h0
      simp only [mergeSpecGo, h0', merge]
    | [a] =>
      rw [hdrop] at h0 h1
      have h0' : indices[i]? = some a := h0
      have h1' : indices[i + 1]? = none := h1
      simp only [mergeSpecGo, h0', h1', merge]
      rw [ih (i + 1) (by omega), hd1, hdrop]
      rfl
    | a :: b :: t =>
      rw [hdrop] at h0 h1
      have h0' : indices[i]? = some a := h0
      have h1' : indices[i + 1]? = some b := by
        rw [h1]
        simp
      simp only [mergeSpecGo, h0', h1', merge]
      by_cases hab : a = p.1 ∧ b = p.2
      · rw [if_pos hab, if_pos hab, ih (i + 2) (by omega), hd2, hdrop]
        rfl
      · rw [if_neg hab, if_neg hab, ih (i + 1) (by omega), hd1, hdrop]
        rfl

/-- C4: `merge` equals the reference single left-to-right pass, which at each
position emits the new token and advances by two on a match of `(left, right)`
and otherwise emits the current element and advances by one; it is total and
deterministic, and on the two reference inputs it gives
`merge [1,2,3,4,2,3,5] (2,3) 9 = [1,9,4,9,5]` and
`merge [5,5,5] (5,5) 7 = [7,5]`. -/
theorem merge_matches_reference :
    (∀ (indices : List Nat) (p : Nat × Nat) (n : Nat),
        merge indices p n = mergeSpec indices p n) ∧
    merge [1, 2, 3, 4, 2, 3, 5] (2, 3) 9 = [1, 9, 4, 9, 5] ∧
    merge [5, 5, 5] (5, 5) 7 = [7, 5] := by
  refine ⟨fun indices p n => ?_, by decide, by decide⟩
  rw [mergeSpec, mergeSpecGo_eq_merge indices p n indices.length 0 (by omega),
    List.drop_zero]

/-- C5: `BPETokenizer.encode` converts the string to its UTF-8 byte tokens and
then applies the learned merge rules one at a time in insertion order: with no
rules it returns the raw bytes, and appending one more rule to the rule list
post-composes exactly one further `merge` with that rule's pair and token.
`encode` is a total function, so it never fails and is deterministic. -/
theorem encode_applies_rules_in_order :
    (∀ (vocab : List (Nat × List Nat)) (s : List Char),
        encode ⟨vocab, []⟩ s = strToBytes s) ∧
    (∀ (vocab : List (Nat × List Nat)) (rules : List ((Nat × Nat) × Nat))
        (p : Nat × Nat) (n : Nat) (s : List Char),
        encode ⟨vocab, rules ++ [(p, n)]⟩ s =
          merge (encode ⟨vocab, rules⟩ s) p n) := by
  constructor
  · intro vocab s
    rfl
  · intro vocab rules p n s
    simp only [encode, applyMerges, List.foldl_append, List.foldl_cons, List.foldl_nil]

theorem lookupAll_eq_none_iff (vocab : List (Nat × List Nat)) (l : List Nat) :
    lookupAll vocab l = none ↔ ∃ t ∈ l, dictGet vocab t = none := by
  induction l with
  | nil => simp [lookupAll]
  | cons t ts ih =>
    simp only [lookupAll]
    cases hv : dictGet vocab t with
    | none =>
      constructor
      · intro _
        exact ⟨t, List.mem_cons_self t ts, hv⟩
      · intro _
        rfl
    | some v =>
      cases hl : lookupAll vocab ts with
      | none =>
        rw [hl] at ih
        simp only [true_iff] at ih
        constructor
        · intro _
          obtain ⟨u, hu, hnone⟩ := ih
          exact ⟨u, List.mem_cons_of_mem t hu, hnone⟩
        · intro _
          rfl
      | some rest =>
        rw [hl] at ih
        simp only [reduceCtorEq, false_iff] at ih
        constructor
        · intro h
          exact Option.noConfusion h
        · rintro ⟨u, hu, hnone⟩
          rcases List.mem_cons.mp hu with rfl | hu
          · rw [hv] at hnone
            exact Option.noConfusion hnone
          · exact absurd ⟨u, hu, hnone⟩ ih

/-- C6: `BPETokenizer.decode` fails with `UnknownTokenError` exactly when some
token of the input is absent from the vocabulary; otherwise it fails with
`DecodeError` exactly when the concatenation of the tokens' byte expansions is
not valid UTF-8; in all remaining cases it returns the decoded string. -/
theorem decode_error_characterization (params : BPETokenizerParams)
    (indices : List Nat) :
    (decode params indices = Except.error DecodeErr.unknownToken ↔
      ∃ t ∈ indices, dictGet params.vocab t = none) ∧
    (decode params indices = Except.error DecodeErr.decodeError ↔
      ∃ bls, lookupAll params.vocab indices = some bls ∧
        utf8Decode bls.flatten = none) ∧
    (∀ s : List Char, decode params indices = Except.ok s ↔
      ∃ bls, lookupAll params.vocab indices = some bls ∧
        utf8Decode bls.flatten = some s) := by
  unfold decode
  cases hl : lookupAll params.vocab indices with
  | none =>
    rw [← lookupAll_eq_none_iff]
    simp [hl]
  | some bls =>
    have hnot : ¬ ∃ t ∈ indices, dictGet params.vocab t = none := by
      rw [← lookupAll_eq_none_iff, hl]
      simp
    cases hd : utf8Decode bls.flatten with
    | none => simp [hl, hd, hnot]
    | some s => simp [hl, hd, hnot]

theorem char_valid_ranges (c : Char) :
    c.toNat < 55296 ∨ (57343 < c.toNat ∧ c.toNat < 1114112) := c.valid

theorem utf8DecodeChar_encode (n : Nat)
    (hv : n < 55296 ∨ (57343 < n ∧ n < 1114112)) (bs : List Nat) :
    utf8DecodeChar (utf8EncodeChar n ++ bs) = some (n, bs) := by
  by_cases h1 : n < 128
  · rw [utf8EncodeChar, if_pos h1, List.cons_append, List.nil_append]
    simp only [utf8DecodeChar]
    rw [if_pos h1]
  · by_cases h2 : n < 2048
    · rw [utf8EncodeChar, if_neg h1, if_pos h2]
      simp only [List.cons_append, List.nil_append, utf8DecodeChar]
      rw [if_neg (by omega), if_neg (by omega), if_pos (by omega),
        if_pos (show contByte (128 + n % 64) from ⟨by omega, by omega⟩)]
      rw [if_pos (by omega)]
      have : (192 + n / 64 - 192) * 64 + (128 + n % 64 - 128) = n := by omega
      rw [this]
    · by_cases h3 : n < 65536
      · rw [utf8EncodeChar, if_neg h1, if_neg h2, if_pos h3]
        simp only [List.cons_append, List.nil_append, utf8DecodeChar]
        rw [if_neg (by omega), if_neg (by omega), if_neg (by omega), if_pos (by omega),
          if_pos (show contByte (128 + n / 64 % 64) ∧ contByte (128 + n % 64) from
            ⟨⟨by omega, by omega⟩, ⟨by omega, by omega⟩⟩)]
        rw [if_pos (by omega)]
        have : (224 + n / 4096 - 224) * 4096 + (128 + n / 64 % 64 - 128) * 64 +
            (128 + n % 64 - 128) = n := by omega
        rw [this]
      · rw [utf8EncodeChar, if_neg h1, if_neg h2, if_neg h3]
        have h4 : n < 1114112 := by omega
        simp only [List.cons_append, List.nil_append, utf8DecodeChar]
        rw [if_neg (by omega), if_neg (by omega), if_neg (by omega), if_neg (by omega),
          if_pos (by omega),
          if_pos (show contByte (128 + n / 4096 % 64) ∧ contByte (128 + n / 64 % 64) ∧
              contByte (128 + n % 64) from
            ⟨⟨by omega, by omega⟩, ⟨by omega, by omega⟩, ⟨by omega, by omega⟩⟩)]
        rw [if_pos (by omega)]
        have : (240 + n / 262144 - 240) * 262144 + (128 + n / 4096 % 64 - 128) * 4096 +
            (128 + n / 64 % 64 - 128) * 64 + (128 + n % 64 - 128) = n := by omega
        rw [this]

theorem utf8EncodeChar_cons (n : Nat) : ∃ b bs0, utf8EncodeChar n = b :: bs0 := by
  rw [utf8EncodeChar]
  split_ifs <;> exact ⟨_, _, rfl⟩

theorem utf8DecodeFuel_strToBytes (s : List Char) :
    ∀ fuel, (strToBytes s).length ≤ fuel →
      utf8DecodeFuel fuel (strToBytes s) = some s := by
  induction s with
  | nil =>
    intro fuel _
    cases fuel <;> rfl
  | cons c s ih =>
    intro fuel hf
    have hs : strToBytes (c :: s) = utf8EncodeChar c.toNat ++ strToBytes s := by
      simp [strToBytes]
    obtain ⟨b, bs0, he⟩ := utf8EncodeChar_cons c.toNat
    have hchar : utf8DecodeChar (b :: (bs0 ++ strToBytes s)) =
        some (c.toNat, strToBytes s) := by
      rw [← List.cons_append, ← he]
      exact utf8DecodeChar_encode c.toNat (char_valid_ranges c) (strToBytes s)
    rw [hs, he, List.cons_append] at hf ⊢
    have hlen : (strToBytes s).length ≤ fuel - 1 ∧ 1 ≤ fuel := by
      simp only [List.length_cons, List.length_append] at hf
      omega
    cases fuel with
    | zero => omega
    | succ f =>
      simp only [utf8DecodeFuel, hchar]
      rw [ih f (by omega)]
      rw [Char.ofNat_toNat]

theorem utf8Decode_strToBytes (s : List Char) :
    utf8Decode (strToBytes s) = some s :=
  utf8DecodeFuel_strToBytes s (strToBytes s).length le_rfl

theorem dictGet_append_left {κ α : Type} [DecidableEq κ] (l1 l2 : List (κ × α))
    (k : κ) (v : α) (h : dictGet l1 k = some v) : dictGet (l1 ++ l2) k = some v := by
  induction l1 with
  | nil => exact Option.noConfusion h
  | cons e rest ih =>
    obtain ⟨k', v'⟩ := e
    rw [List.cons_append, dictGet]
    rw [dictGet] at h
    by_cases hk : k' = k
    · rw [if_pos hk] at h ⊢
      exact h
    · rw [if_neg hk] at h ⊢
      exact ih h

theorem dictGet_append_right {κ α : Type} [DecidableEq κ] (l1 l2 : List (κ × α))
    (k : κ) (h : dictGet l1 k = none) : dictGet (l1 ++ l2) k = dictGet l2 k := by
  induction l1 with
  | nil => rfl
  | cons e rest ih =>
    obtain ⟨k', v'⟩ := e
    rw [List.cons_append, dictGet]
    rw [dictGet] at h
    by_cases hk : k' = k
    · rw [if_pos hk] at h
      exact Option.noConfusion h
    · rw [if_neg hk] at h ⊢
      exact ih h

theorem dictGet_eq_none_iff {κ α : Type} [DecidableEq κ] (l : List (κ × α)) (k : κ) :
    dictGet l k = none ↔ k ∉ l.map Prod.fst := by
  induction l with
  | nil => simp [dictGet]
  | cons e rest ih =>
    obtain ⟨k', v'⟩ := e
    rw [dictGet]
    by_cases hk : k' = k
    · subst hk
      simp
    · rw [if_neg hk]
      simp only [List.map_cons, List.mem_cons]
      rw [ih]
      constructor
      · rintro hn (h | h)
        · exact hk h.symm
        · exact hn h
      · intro hn h
        exact hn (Or.inr h)

theorem dictGet_isSome_iff {κ α : Type} [DecidableEq κ] (l : List (κ × α)) (k : κ) :
    (dictGet l k).isSome ↔ k ∈ l.map Prod.fst := by
  rw [← not_iff_not, Option.not_isSome_iff_eq_none, dictGet_eq_none_iff]

theorem dictInsert_eq_append {κ α : Type} [DecidableEq κ] (l : List (κ × α))
    (k : κ) (v : α) (h : k ∉ l.map Prod.fst) : dictInsert l k v = l ++ [(k, v)] := by
  induction l with
  | nil => rfl
  | cons e rest ih =>
    obtain ⟨k', v'⟩ := e
    simp only [List.map_cons, List.mem_cons] at h
    push_neg at h
    rw [dictInsert, if_neg h.1.symm, List.cons_append, ih h.2]

theorem dictGet_base (m t : Nat) :
    dictGet ((List.range m).map fun x => (x, [x])) t =
      if t < m then some [t] else none := by
  induction m with
  | zero => simp [dictGet]
  | succ m ih =>
    rw [List.range_succ, List.map_append]
    by_cases ht : t < m
    · rw [dictGet_append_left _ _ t [t] (by rw [ih, if_pos ht]), if_pos (by omega)]
    · rw [dictGet_append_right _ _ t (by rw [ih, if_neg ht])]
      simp only [List.map_cons, List.map_nil, dictGet]
      by_cases he : t = m
      · subst he
        simp
      · rw [if_neg (fun h => he h.symm), if_neg (by omega)]

theorem expand_nil (vocab : List (Nat × List Nat)) : expand vocab [] = some [] := rfl

theorem lookupAll_cons (vocab : List (Nat × List Nat)) (t : Nat) (ts : List Nat) :
    lookupAll vocab (t :: ts) =
      match dictGet vocab t, lookupAll vocab ts with
      | some v, some rest => some (v :: rest)
      | _, _ => none := rfl

theorem expand_cons (vocab : List (Nat × List Nat)) (t : Nat) (ts : List Nat) :
    expand vocab (t :: ts) =
      match dictGet vocab t, expand vocab ts with
      | some v, some r => some (v ++ r)
      | _, _ => none := by
  unfold expand
  rw [lookupAll_cons]
  cases hg : dictGet vocab t with
  | none => rfl
  | some v =>
    cases hl : lookupAll vocab ts with
    | none => rfl
    | some l => rfl

theorem merge_mem (p : Nat × Nat) (n : Nat) :
    ∀ (ind : List Nat), ∀ t ∈ merge ind p n, t ∈ ind ∨ t = n
  | [] => by simp [merge]
  | [x] => by simp [merge]
  | x :: y :: rest => by
    have ih1 := merge_mem p n rest
    have ih2 := merge_mem p n (y :: rest)
    intro t ht
    simp only [merge] at ht
    by_cases hxy : x = p.1 ∧ y = p.2
    · rw [if_pos hxy] at ht
      rcases List.mem_cons.mp ht with rfl | ht
      · exact Or.inr rfl
      · rcases ih1 t ht with h | h
        · exact Or.inl (List.mem_cons_of_mem _ (List.mem_cons_of_mem _ h))
        · exact Or.inr h
    · rw [if_neg hxy] at ht
      rcases List.mem_cons.mp ht with rfl | ht
      · exact Or.inl (List.mem_cons_self _ _)
      · rcases ih2 t ht with h | h
        · exact Or.inl (List.mem_cons_of_mem _ h)
        · exact Or.inr h

theorem adjacentPairs_tail (h : Nat) (t : List Nat) :
    ∀ q ∈ adjacentPairs t, q ∈ adjacentPairs (h :: t) := by
  cases t with
  | nil => simp [adjacentPairs]
  | cons a t' =>
    intro q hq
    exact List.mem_cons_of_mem _ hq

theorem mem_adjacentPairs :
    ∀ (ind : List Nat), ∀ q ∈ adjacentPairs ind, q.1 ∈ ind ∧ q.2 ∈ ind
  | [] => by simp [adjacentPairs]
  | [x] => by simp [adjacentPairs]
  | x :: y :: rest => by
    have ih := mem_adjacentPairs (y :: rest)
    intro q hq
    simp only [adjacentPairs] at hq
    rcases List.mem_cons.mp hq with rfl | hq
    · exact ⟨List.mem_cons_self _ _, List.mem_cons_of_mem _ (List.mem_cons_self _ _)⟩
    · obtain ⟨h1, h2⟩ := ih q hq
      exact ⟨List.mem_cons_of_mem _ h1, List.mem_cons_of_mem _ h2⟩

theorem merge_cons_shape (p : Nat × Nat) (n y : Nat) (rest : List Nat) :
    ∃ t, merge (y :: rest) p n = n :: t ∨ merge (y :: rest) p n = y :: t := by
  cases rest with
  | nil => exact ⟨[], Or.inr rfl⟩
  | cons z r =>
    simp only [merge]
    by_cases h : y = p.1 ∧ z = p.2
    · rw [if_pos h]
      exact ⟨_, Or.inl rfl⟩
    · rw [if_neg h]
      exact ⟨_, Or.inr rfl⟩

theorem adjacentPairs_merge (p : Nat × Nat) (n : Nat) :
    ∀ (ind : List Nat), ∀ q ∈ adjacentPairs (merge ind p n),
      (q ∈ adjacentPairs ind ∧ q ≠ p) ∨ q.1 = n ∨ q.2 = n
  | [] => by simp [merge, adjacentPairs]
  | [x] => by simp [merge, adjacentPairs]
  | x :: y :: rest => by
    have ih1 := adjacentPairs_merge p n rest
    have ih2 := adjacentPairs_merge p n (y :: rest)
    intro q hq
    simp only [merge] at hq
    by_cases hxy : x = p.1 ∧ y = p.2
    · rw [if_pos hxy] at hq
      cases hm : merge rest p n with
      | nil =>
        rw [hm] at hq
        simp [adjacentPairs] at hq
      | cons m1 mt =>
        rw [hm] at hq
        simp only [adjacentPairs] at hq
        rcases List.mem_cons.mp hq with rfl | hq
        · exact Or.inr (Or.inl rfl)
        · rw [← hm] at hq
          rcases ih1 q hq with ⟨hmem, hne⟩ | hn
          · exact Or.inl ⟨adjacentPairs_tail x _ q (adjacentPairs_tail y rest q hmem), hne⟩
          · exact Or.inr hn
    · rw [if_neg hxy] at hq
      obtain ⟨t, ht | ht⟩ := merge_cons_shape p n y rest
      · rw [ht] at hq
        simp only [adjacentPairs] at hq
        rcases List.mem_cons.mp hq with rfl | hq
        · exact Or.inr (Or.inr rfl)
        · rw [← ht] at hq
          rcases ih2 q hq with ⟨hmem, hne⟩ | hn
          · exact Or.inl ⟨adjacentPairs_tail x _ q hmem, hne⟩
          · exact Or.inr hn
      · rw [ht] at hq
        simp only [adjacentPairs] at hq
        rcases List.mem_cons.mp hq with rfl | hq
        · refine Or.inl ⟨by simp [adjacentPairs], ?_⟩
          intro hqp
          exact hxy ⟨congrArg Prod.fst hqp, congrArg Prod.snd hqp⟩
        · rw [← ht] at hq
          rcases ih2 q hq with ⟨hmem, hne⟩ | hn
          · exact Or.inl ⟨adjacentPairs_tail x _ q hmem, hne⟩
          · exact Or.inr hn

theorem expand_merge (vocab : List (Nat × List Nat)) (a b n : Nat)
    (va vb : List Nat) (ha : dictGet vocab a = some va)
    (hb : dictGet vocab b = some vb) (hn : dictGet vocab n = some (va ++ vb)) :
    ∀ (ind : List Nat), expand vocab (merge ind (a, b) n) = expand vocab ind
  | [] => rfl
  | [x] => rfl
  | x :: y :: rest => by
    have ih1 := expand_merge vocab a b n va vb ha hb hn rest
    have ih2 := expand_merge vocab a b n va vb ha hb hn (y :: rest)
    simp only [merge]
    by_cases hxy : x = (a, b).1 ∧ y = (a, b).2
    · rw [if_pos hxy]
      obtain ⟨hx, hy⟩ := hxy
      subst hx
      subst hy
      rw [expand_cons, expand_cons, expand_cons, hn, ha, hb, ih1]
      cases expand vocab rest with
      | none => rfl
      | some r => simp [List.append_assoc]
    · rw [if_neg hxy]
      rw [expand_cons, expand_cons, ih2]

theorem insertLast_of_mem (acc : List (Nat × Nat)) (x : Nat × Nat) (h : x ∈ acc) :
    insertLast acc x = acc := by
  simp [insertLast, h]

theorem insertLast_of_not_mem (acc : List (Nat × Nat)) (x : Nat × Nat) (h : x ∉ acc) :
    insertLast acc x = acc ++ [x] := by
  simp [insertLast, h]

theorem bump_map_fst (c : List ((Nat × Nat) × Nat)) (p : Nat × Nat) :
    (bump c p).map Prod.fst = insertLast (c.map Prod.fst) p := by
  induction c with
  | nil => simp [bump, insertLast]
  | cons e rest ih =>
    obtain ⟨q, c0⟩ := e
    rw [bump]
    by_cases hq : q = p
    · subst hq
      rw [if_pos rfl]
      simp [insertLast]
    · rw [if_neg hq]
      simp only [List.map_cons, ih, insertLast, List.mem_cons]
      by_cases hp : p ∈ List.map Prod.fst rest
      · rw [if_pos hp, if_pos (Or.inr hp)]
      · rw [if_neg hp, if_neg (by rintro (h | h); exact hq h.symm; exact hp h),
          List.cons_append]

theorem dictGet_bump (c : List ((Nat × Nat) × Nat)) (p q : Nat × Nat) :
    dictGet (bump c p) q = if q = p then some (cntOf c p + 1) else dictGet c q := by
  induction c with
  | nil =>
    by_cases hq : q = p
    · subst hq
      simp [bump, dictGet, cntOf]
    · simp [bump, dictGet, cntOf, hq, Ne.symm hq]
  | cons e rest ih =>
    obtain ⟨r, c0⟩ := e
    by_cases hr : r = p
    · subst hr
      by_cases hq : q = r
      · subst hq
        simp [bump, dictGet, cntOf]
      · simp [bump, dictGet, cntOf, hq, Ne.symm hq]
    · by_cases hq2 : r = q
      · subst hq2
        simp [bump, dictGet, cntOf, hr, Ne.symm hr]
      · simp [bump, dictGet, cntOf, hr, hq2, ih]

theorem cntOf_bump (c : List ((Nat × Nat) × Nat)) (p q : Nat × Nat) :
    cntOf (bump c p) q = if q = p then cntOf c q + 1 else cntOf c q := by
  rw [cntOf, dictGet_bump]
  by_cases hq : q = p
  · subst hq
    simp [cntOf]
  · simp [hq, cntOf]

theorem foldl_bump_map_fst (l : List (Nat × Nat)) :
    ∀ acc, (l.foldl bump acc).map Prod.fst = l.foldl insertLast (acc.map Prod.fst) := by
  induction l with
  | nil => intro acc; rfl
  | cons x xs ih =>
    intro acc
    rw [List.foldl_cons, List.foldl_cons, ih, bump_map_fst]

theorem cntOf_foldl_bump (l : List (Nat × Nat)) :
    ∀ acc q, cntOf (l.foldl bump acc) q = cntOf acc q + countIn l q := by
  induction l with
  | nil => intro acc q; rw [countIn]; rfl
  | cons x xs ih =>
    intro acc q
    rw [List.foldl_cons, ih, cntOf_bump, countIn]
    by_cases hq : q = x
    · subst hq
      rw [if_pos rfl, if_pos rfl]
      omega
    · rw [if_neg hq, if_neg (fun h => hq h.symm)]
      omega

theorem mem_foldl_insertLast (l : List (Nat × Nat)) :
    ∀ acc q, q ∈ l.foldl insertLast acc ↔ q ∈ acc ∨ q ∈ l := by
  induction l with
  | nil => intro acc q; simp
  | cons x xs ih =>
    intro acc q
    rw [List.foldl_cons]
    by_cases hx : x ∈ acc
    · rw [insertLast_of_mem _ _ hx, ih]
      simp only [List.mem_cons]
      constructor
      · rintro (h | h)
        · exact Or.inl h
        · exact Or.inr (Or.inr h)
      · rintro (h | rfl | h)
        · exact Or.inl h
        · exact Or.inl hx
        · exact Or.inr h
    · rw [insertLast_of_not_mem _ _ hx, ih]
      simp only [List.mem_append, List.mem_singleton, List.mem_cons]
      tauto

theorem foldl_insertLast_shape (l : List (Nat × Nat)) :
    ∀ acc, ∃ t, l.foldl insertLast acc = acc ++ t := by
  induction l with
  | nil => intro acc; exact ⟨[], by simp⟩
  | cons x xs ih =>
    intro acc
    rw [List.foldl_cons]
    by_cases hx : x ∈ acc
    · rw [insertLast_of_mem _ _ hx]
      exact ih acc
    · rw [insertLast_of_not_mem _ _ hx]
      obtain ⟨t, ht⟩ := ih (acc ++ [x])
      exact ⟨[x] ++ t, by rw [ht, List.append_assoc]⟩

theorem nodup_foldl_insertLast (l : List (Nat × Nat)) :
    ∀ acc, acc.Nodup → (l.foldl insertLast acc).Nodup := by
  induction l with
  | nil => intro acc h; exact h
  | cons x xs ih =>
    intro acc h
    rw [List.foldl_cons]
    by_cases hx : x ∈ acc
    · rw [insertLast_of_mem _ _ hx]
      exact ih acc h
    · rw [insertLast_of_not_mem _ _ hx]
      exact ih _ (by simp [List.nodup_append, h, hx])

theorem firstIdx_lt_length (q : Nat × Nat) :
    ∀ (l : List (Nat × Nat)), q ∈ l → firstIdx l q < l.length := by
  intro l
  induction l with
  | nil => intro h; cases h
  | cons x xs ih =>
    intro hq
    rw [firstIdx]
    by_cases hx : x = q
    · rw [if_pos hx]
      simp
    · rw [if_neg hx]
      rcases List.mem_cons.mp hq with rfl | hq
      · exact absurd rfl hx
      · have := ih hq
        simp only [List.length_cons]
        omega

theorem firstIdx_append_of_mem (q : Nat × Nat) :
    ∀ (l1 l2 : List (Nat × Nat)), q ∈ l1 →
      firstIdx (l1 ++ l2) q = firstIdx l1 q := by
  intro l1
  induction l1 with
  | nil => intro l2 h; cases h
  | cons x xs ih =>
    intro l2 hq
    rw [List.cons_append, firstIdx, firstIdx]
    by_cases hx : x = q
    · rw [if_pos hx, if_pos hx]
    · rw [if_neg hx, if_neg hx]
      rcases List.mem_cons.mp hq with rfl | hq
      · exact absurd rfl hx
      · rw [ih l2 hq]

theorem firstIdx_append_of_not_mem (q : Nat × Nat) :
    ∀ (l1 l2 : List (Nat × Nat)), q ∉ l1 →
      firstIdx (l1 ++ l2) q = l1.length + firstIdx l2 q := by
  intro l1
  induction l1 with
  | nil => intro l2 _; simp [firstIdx]
  | cons x xs ih =>
    intro l2 hq
    rw [List.cons_append, firstIdx]
    have hx : ¬ x = q := fun h => hq (h ▸ List.mem_cons_self x xs)
    rw [if_neg hx, ih l2 (fun h => hq (List.mem_cons_of_mem _ h))]
    simp only [List.length_cons]
    omega

theorem firstIdx_inj (p q : Nat × Nat) :
    ∀ (l : List (Nat × Nat)), p ∈ l → q ∈ l →
      firstIdx l p = firstIdx l q → p = q := by
  intro l
  induction l with
  | nil => intro h; cases h
  | cons x xs ih =>
    intro hp hq heq
    rw [firstIdx, firstIdx] at heq
    by_cases hxp : x = p
    · by_cases hxq : x = q
      · rw [← hxp, ← hxq]
      · rw [if_pos hxp, if_neg hxq] at heq
        omega
    · by_cases hxq : x = q
      · rw [if_neg hxp, if_pos hxq] at heq
        omega
      · rw [if_neg hxp, if_neg hxq] at heq
        rcases List.mem_cons.mp hp with rfl | hp
        · exact absurd rfl hxp
        · rcases List.mem_cons.mp hq with rfl | hq
          · exact absurd rfl hxq
          · exact ih hp hq (by omega)

theorem firstIdx_foldl_insertLast_placed (l : List (Nat × Nat)) (acc : List (Nat × Nat))
    (p q : Nat × Nat) (hp : p ∈ acc) (hq : q ∉ acc) (hql : q ∈ l) :
    firstIdx (l.foldl insertLast acc) p < firstIdx (l.foldl insertLast acc) q := by
  obtain ⟨t, ht⟩ := foldl_insertLast_shape l acc
  have hqt : q ∈ t := by
    have := (mem_foldl_insertLast l acc q).mpr (Or.inr hql)
    rw [ht] at this
    rcases List.mem_append.mp this with h | h
    · exact absurd h hq
    · exact h
  rw [ht, firstIdx_append_of_mem p acc t hp, firstIdx_append_of_not_mem q acc t hq]
  have := firstIdx_lt_length p acc hp
  omega

theorem firstIdx_foldl_insertLast_mono (l : List (Nat × Nat)) :
    ∀ (acc : List (Nat × Nat)) (p q : Nat × Nat), p ∈ l → q ∈ l → p ≠ q →
      p ∉ acc → q ∉ acc → firstIdx l p < firstIdx l q →
      firstIdx (l.foldl insertLast acc) p < firstIdx (l.foldl insertLast acc) q := by
  induction l with
  | nil => intro acc p q hp; cases hp
  | cons x xs ih =>
    intro acc p q hp hq hne hpa hqa hlt
    rw [List.foldl_cons]
    by_cases hxp : x = p
    · subst hxp
      have hins : insertLast acc x = acc ++ [x] := insertLast_of_not_mem acc x hpa
      rw [hins]
      apply firstIdx_foldl_insertLast_placed
      · exact List.mem_append.mpr (Or.inr (List.mem_cons_self x []))
      · intro hmem
        rcases List.mem_append.mp hmem with h | h
        · exact hqa h
        · rcases List.mem_cons.mp h with rfl | h
          · exact hne rfl
          · cases h
      · rcases List.mem_cons.mp hq with rfl | h
        · exact absurd rfl hne
        · exact h
    · by_cases hxq : x = q
      · subst hxq
        rw [firstIdx, firstIdx, if_pos rfl, if_neg hxp] at hlt
        omega
      · rw [firstIdx, firstIdx, if_neg hxp, if_neg hxq] at hlt
        have hp' : p ∈ xs := by
          rcases List.mem_cons.mp hp with rfl | h
          · exact absurd rfl hxp
          · exact h
        have hq' : q ∈ xs := by
          rcases List.mem_cons.mp hq with rfl | h
          · exact absurd rfl hxq
          · exact h
        by_cases hxa : x ∈ acc
        · rw [insertLast_of_mem acc x hxa]
          exact ih acc p q hp' hq' hne hpa hqa (by omega)
        · rw [insertLast_of_not_mem acc x hxa]
          apply ih (acc ++ [x]) p q hp' hq' hne
          · intro hmem
            rcases List.mem_append.mp hmem with h | h
            · exact hpa h
            · rcases List.mem_cons.mp h with rfl | h
              · exact hxp rfl
              · cases h
          · intro hmem
            rcases List.mem_append.mp hmem with h | h
            · exact hqa h
            · rcases List.mem_cons.mp h with rfl | h
              · exact hxq rfl
              · cases h
          · omega

theorem maxPairGo_spec :
    ∀ (rest : List ((Nat × Nat) × Nat)) (best : Nat × Nat) (bc : Nat),
      (maxPairGo best bc rest = best ∧ ∀ e ∈ rest, e.2 ≤ bc) ∨
      (∃ cr c1 c2, rest = c1 ++ (maxPairGo best bc rest, cr) :: c2 ∧ bc < cr ∧
        (∀ e ∈ c1, e.2 < cr) ∧ (∀ e ∈ c2, e.2 ≤ cr))
  | [], best, bc => Or.inl ⟨rfl, by simp⟩
  | (p, c) :: rest, best, bc => by
    simp only [maxPairGo]
    by_cases h : bc < c
    · rw [if_pos h]
      rcases maxPairGo_spec rest p c with ⟨heq, hle⟩ | ⟨cr, c1, c2, hdec, hlt, h1, h2⟩
      · refine Or.inr ⟨c, [], rest, ?_, h, by simp, hle⟩
        rw [heq]
        rfl
      · refine Or.inr ⟨cr, (p, c) :: c1, c2, ?_, by omega, ?_, h2⟩
        · rw [List.cons_append, ← hdec]
        · intro e he
          rcases List.mem_cons.mp he with rfl | he
          · exact hlt
          · exact h1 e he
    · rw [if_neg h]
      rcases maxPairGo_spec rest best bc with ⟨heq, hle⟩ | ⟨cr, c1, c2, hdec, hlt, h1, h2⟩
      · refine Or.inl ⟨heq, ?_⟩
        intro e he
        rcases List.mem_cons.mp he with rfl | he
        · show c ≤ bc
          omega
        · exact hle e he
      · refine Or.inr ⟨cr, (p, c) :: c1, c2, by rw [List.cons_append, ← hdec], hlt, ?_, h2⟩
        intro e he
        rcases List.mem_cons.mp he with rfl | he
        · show c < cr
          omega
        · exact h1 e he

theorem maxPair_decomp (c : List ((Nat × Nat) × Nat)) (r : Nat × Nat)
    (h : maxPair c = some r) :
    ∃ cr c1 c2, c = c1 ++ (r, cr) :: c2 ∧ (∀ e ∈ c1, e.2 < cr) ∧
      ∀ e ∈ c2, e.2 ≤ cr := by
  cases c with
  | nil => exact Option.noConfusion h
  | cons e0 rest =>
    obtain ⟨p0, c0⟩ := e0
    have hr : maxPairGo p0 c0 rest = r := by
      rw [maxPair] at h
      exact Option.some.inj h
    rcases maxPairGo_spec rest p0 c0 with ⟨heq, hle⟩ | ⟨cr, c1, c2, hdec, hlt, h1, h2⟩
    · refine ⟨c0, [], rest, ?_, by simp, hle⟩
      rw [← hr, heq]
      rfl
    · refine ⟨cr, (p0, c0) :: c1, c2, ?_, ?_, h2⟩
      · rw [← hr, List.cons_append, ← hdec]
      · intro e he
        rcases List.mem_cons.mp he with rfl | he
        · show c0 < cr
          omega
        · exact h1 e he

theorem dictGet_of_mem_nodup {κ α : Type} [DecidableEq κ] (c : List (κ × α)) (k : κ)
    (v : α) (hmem : (k, v) ∈ c) (hnd : (c.map Prod.fst).Nodup) :
    dictGet c k = some v := by
  induction c with
  | nil => cases hmem
  | cons e rest ih =>
    obtain ⟨k', v'⟩ := e
    rw [dictGet]
    simp only [List.map_cons, List.nodup_cons] at hnd
    rcases List.mem_cons.mp hmem with heq | hmem'
    · injection heq with h1 h2
      subst h1
      subst h2
      rw [if_pos rfl]
    · by_cases hk : k' = k
      · subst hk
        exact absurd (List.mem_map_of_mem Prod.fst hmem') hnd.1
      · rw [if_neg hk]
        exact ih hmem' hnd.2

theorem countPairs_map_fst (ind : List Nat) :
    (countPairs ind).map Prod.fst = (adjacentPairs ind).foldl insertLast [] := by
  rw [countPairs, foldl_bump_map_fst]
  rfl

theorem countPairs_nodup_keys (ind : List Nat) :
    ((countPairs ind).map Prod.fst).Nodup := by
  rw [countPairs_map_fst]
  exact nodup_foldl_insertLast _ [] List.nodup_nil

theorem mem_countPairs_keys (ind : List Nat) (q : Nat × Nat) :
    q ∈ (countPairs ind).map Prod.fst ↔ q ∈ adjacentPairs ind := by
  rw [countPairs_map_fst, mem_foldl_insertLast]
  simp

theorem cntOf_countPairs (ind : List Nat) (q : Nat × Nat) :
    cntOf (countPairs ind) q = countIn (adjacentPairs ind) q := by
  rw [countPairs, cntOf_foldl_bump]
  simp [cntOf, dictGet]

theorem maxPair_countPairs_spec (ind : List Nat) (p : Nat × Nat)
    (h : maxPair (countPairs ind) = some p) :
    p ∈ adjacentPairs ind ∧
    (∀ q ∈ adjacentPairs ind,
      countIn (adjacentPairs ind) q ≤ countIn (adjacentPairs ind) p) ∧
    (∀ q ∈ adjacentPairs ind,
      countIn (adjacentPairs ind) q = countIn (adjacentPairs ind) p → q ≠ p →
        firstIdx (adjacentPairs ind) p < firstIdx (adjacentPairs ind) q) := by
  obtain ⟨cr, c1, c2, hdec, hc1, hc2⟩ := maxPair_decomp (countPairs ind) p h
  have hnd := countPairs_nodup_keys ind
  have hpkeys : p ∈ (countPairs ind).map Prod.fst := by
    rw [hdec]
    simp
  have hpl : p ∈ adjacentPairs ind := (mem_countPairs_keys ind p).mp hpkeys
  have hpcnt : dictGet (countPairs ind) p = some cr :=
    dictGet_of_mem_nodup _ p cr (by rw [hdec]; simp) hnd
  have hcntp : countIn (adjacentPairs ind) p = cr := by
    rw [← cntOf_countPairs, cntOf, hpcnt]
    rfl
  have hentry : ∀ q ∈ adjacentPairs ind, ∃ cq, (q, cq) ∈ countPairs ind ∧
      countIn (adjacentPairs ind) q = cq := by
    intro q hq
    have hqk : q ∈ (countPairs ind).map Prod.fst := (mem_countPairs_keys ind q).mpr hq
    rcases List.mem_map.mp hqk with ⟨⟨q', cq⟩, he, hfst⟩
    have hq' : q' = q := hfst
    subst hq'
    refine ⟨cq, he, ?_⟩
    rw [← cntOf_countPairs, cntOf, dictGet_of_mem_nodup _ q' cq he hnd]
    rfl
  have hmax : ∀ q ∈ adjacentPairs ind,
      countIn (adjacentPairs ind) q ≤ countIn (adjacentPairs ind) p := by
    intro q hq
    obtain ⟨cq, hqmem, hqcnt⟩ := hentry q hq
    rw [hqcnt, hcntp]
    rw [hdec] at hqmem
    rcases List.mem_append.mp hqmem with h1 | h1
    · exact le_of_lt (hc1 _ h1)
    · rcases List.mem_cons.mp h1 with heq | h1
      · injection heq with h1 h2
        omega
      · exact hc2 _ h1
  refine ⟨hpl, hmax, ?_⟩
  intro q hq hcnteq hne
  obtain ⟨cq, hqmem, hqcnt⟩ := hentry q hq
  have hcq : cq = cr := by
    rw [hqcnt, hcntp] at hcnteq
    exact hcnteq
  subst hcq
  rw [hdec] at hqmem
  have hqc2 : (q, cq) ∈ c2 := by
    rcases List.mem_append.mp hqmem with h1 | h1
    · exact absurd (hc1 _ h1) (lt_irrefl cq)
    · rcases List.mem_cons.mp h1 with heq | h1
      · injection heq with h2 h3
        exact absurd h2 hne
      · exact h1
  have hkeys : (countPairs ind).map Prod.fst =
      c1.map Prod.fst ++ p :: c2.map Prod.fst := by
    rw [hdec]
    simp
  rw [hkeys] at hnd
  have hdisj : ∀ a ∈ c1.map Prod.fst, a ∉ p :: c2.map Prod.fst := by
    rw [List.nodup_append] at hnd
    intro a ha hmem
    exact hnd.2.2 ha hmem
  have hpA : p ∉ c1.map Prod.fst := fun hmem => hdisj p hmem (List.mem_cons_self _ _)
  have hqB : q ∈ c2.map Prod.fst := List.mem_map_of_mem Prod.fst hqc2
  have hqA : q ∉ c1.map Prod.fst := fun hmem => hdisj q hmem (List.mem_cons_of_mem _ hqB)
  have hkp : firstIdx ((countPairs ind).map Prod.fst) p = (c1.map Prod.fst).length := by
    rw [hkeys, firstIdx_append_of_not_mem p _ _ hpA, firstIdx, if_pos rfl]
    omega
  have hkq : (c1.map Prod.fst).length < firstIdx ((countPairs ind).map Prod.fst) q := by
    rw [hkeys, firstIdx_append_of_not_mem q _ _ hqA, firstIdx,
      if_neg (fun hh => hne hh.symm)]
    omega
  rcases lt_trichotomy (firstIdx (adjacentPairs ind) p) (firstIdx (adjacentPairs ind) q)
    with hlt | heq2 | hgt
  · exact hlt
  · exact absurd (firstIdx_inj p q _ hpl hq heq2) (Ne.symm hne)
  · exfalso
    have hmono := firstIdx_foldl_insertLast_mono (adjacentPairs ind) [] q p hq hpl hne
      (by simp) (by simp) hgt
    rw [← countPairs_map_fst] at hmono
    omega

theorem expand_append (V L : List (Nat × List Nat)) :
    ∀ (ind : List Nat), (∀ t ∈ ind, (dictGet V t).isSome) →
      expand (V ++ L) ind = expand V ind := by
  intro ind
  induction ind with
  | nil => intro _; rfl
  | cons t ts ih =>
    intro h
    rw [expand_cons, expand_cons]
    obtain ⟨v, hv⟩ := Option.isSome_iff_exists.mp (h t (List.mem_cons_self t ts))
    rw [hv, dictGet_append_left _ _ _ _ hv, ih (fun u hu => h u (List.mem_cons_of_mem _ hu))]

theorem expand_self (V : List (Nat × List Nat)) :
    ∀ (ind : List Nat), (∀ t ∈ ind, dictGet V t = some [t]) →
      expand V ind = some ind := by
  intro ind
  induction ind with
  | nil => intro _; rfl
  | cons t ts ih =>
    intro h
    rw [expand_cons, h t (List.mem_cons_self t ts), ih (fun u hu => h u (List.mem_cons_of_mem _ hu))]
    rfl

theorem utf8EncodeChar_lt_256 (n : Nat) (hn : n < 1114112) :
    ∀ b ∈ utf8EncodeChar n, b < 256 := by
  intro b hb
  rw [utf8EncodeChar] at hb
  split_ifs at hb with h1 h2 h3
  · rcases List.mem_singleton.mp hb with rfl
    omega
  all_goals
    simp only [List.mem_cons, List.not_mem_nil, or_false] at hb
    rcases hb with rfl | hb <;> omega

theorem strToBytes_lt_256 (s : List Char) : ∀ b ∈ strToBytes s, b < 256 := by
  intro b hb
  rw [strToBytes] at hb
  rcases List.mem_flatten.mp hb with ⟨chunk, hchunk, hbc⟩
  rcases List.mem_map.mp hchunk with ⟨c, _, rfl⟩
  have hv : c.toNat < 1114112 := by
    rcases char_valid_ranges c with h | ⟨_, h⟩ <;> omega
  exact utf8EncodeChar_lt_256 c.toNat hv b hbc

theorem initState_good (corpus : List Char) :
    GoodState (strToBytes corpus) 0 (initState corpus) := by
  refine ⟨?_, ?_, ?_, ?_, ?_, ?_, ?_, ?_, ?_⟩
  · show baseVocab.map Prod.fst = List.range (256 + 0)
    rw [baseVocab, List.map_map]
    simp [Function.comp_def]
  · intro t ht
    show dictGet baseVocab t = some [t]
    rw [baseVocab, dictGet_base, if_pos ht]
  · intro t ht
    have := strToBytes_lt_256 corpus t ht
    omega
  · rfl
  · intro e he
    cases he
  · intro e he
    cases he
  · exact List.nodup_nil
  · intro e he
    cases he
  · exact expand_self baseVocab _ (fun t ht => by
      rw [baseVocab, dictGet_base, if_pos (strToBytes_lt_256 corpus t ht)])

theorem trainStep_eq (B : List Nat) (i : Nat) (st : TrainState) (hg : GoodState B i st)
    (st' : TrainState) (hstep : trainStep st i = some st') :
    ∃ pair va vb, maxPair (countPairs st.indices) = some pair ∧
      pair ∈ adjacentPairs st.indices ∧
      pair ∉ st.merges.map Prod.fst ∧
      dictGet st.vocab pair.1 = some va ∧ dictGet st.vocab pair.2 = some vb ∧
      st' = ⟨merge st.indices pair (256 + i), st.merges ++ [(pair, 256 + i)],
             st.vocab ++ [(256 + i, va ++ vb)]⟩ := by
  rw [trainStep] at hstep
  cases hmax : maxPair (countPairs st.indices) with
  | none =>
    rw [hmax] at hstep
    exact Option.noConfusion hstep
  | some pair =>
    rw [hmax] at hstep
    have hstep2 : (match dictGet st.vocab pair.1, dictGet st.vocab pair.2 with
        | some v1, some v2 =>
          some (⟨merge st.indices pair (256 + i), dictInsert st.merges pair (256 + i),
            dictInsert st.vocab (256 + i) (v1 ++ v2)⟩ : TrainState)
        | _, _ => none) = some st' := hstep
    have hadj : pair ∈ adjacentPairs st.indices := by
      have hmem : pair ∈ (countPairs st.indices).map Prod.fst := by
        obtain ⟨cr, c1, c2, hdec, _, _⟩ := maxPair_decomp _ pair hmax
        rw [hdec]
        simp
      exact (mem_countPairs_keys _ pair).mp hmem
    have hcomp := mem_adjacentPairs st.indices pair hadj
    have h1 : pair.1 < 256 + i := hg.indices_lt pair.1 hcomp.1
    have h2 : pair.2 < 256 + i := hg.indices_lt pair.2 hcomp.2
    have hv1 : ∃ va, dictGet st.vocab pair.1 = some va := by
      rw [← Option.isSome_iff_exists, dictGet_isSome_iff, hg.vocab_keys, List.mem_range]
      omega
    have hv2 : ∃ vb, dictGet st.vocab pair.2 = some vb := by
      rw [← Option.isSome_iff_exists, dictGet_isSome_iff, hg.vocab_keys, List.mem_range]
      omega
    obtain ⟨va, hva⟩ := hv1
    obtain ⟨vb, hvb⟩ := hv2
    rw [hva, hvb] at hstep2
    have hnotmem : pair ∉ st.merges.map Prod.fst := by
      intro hmem
      rcases List.mem_map.mp hmem with ⟨e, he, hfst⟩
      exact hg.merges_unused e he (hfst ▸ hadj)
    have hins_m : dictInsert st.merges pair (256 + i) = st.merges ++ [(pair, 256 + i)] :=
      dictInsert_eq_append _ _ _ hnotmem
    have hfresh : (256 + i) ∉ st.vocab.map Prod.fst := by
      rw [hg.vocab_keys, List.mem_range]
      omega
    have hins_v : dictInsert st.vocab (256 + i) (va ++ vb) =
        st.vocab ++ [(256 + i, va ++ vb)] :=
      dictInsert_eq_append _ _ _ hfresh
    refine ⟨pair, va, vb, rfl, hadj, hnotmem, hva, hvb, ?_⟩
    rw [← hins_m, ← hins_v]
    exact (Option.some.inj hstep2).symm

theorem trainStep_good (B : List Nat) (i : Nat) (st st' : TrainState)
    (hg : GoodState B i st) (hstep : trainStep st i = some st') :
    GoodState B (i + 1) st' := by
  obtain ⟨pair, va, vb, hmax, hadj, hnotmem, hva, hvb, hst'⟩ :=
    trainStep_eq B i st hg st' hstep
  obtain ⟨a, b⟩ := pair
  subst hst'
  have hcomp := mem_adjacentPairs st.indices (a, b) hadj
  have ha : a < 256 + i := hg.indices_lt a hcomp.1
  have hb : b < 256 + i := hg.indices_lt b hcomp.2
  have hva' : dictGet (st.vocab ++ [(256 + i, va ++ vb)]) a = some va :=
    dictGet_append_left _ _ _ _ hva
  have hvb' : dictGet (st.vocab ++ [(256 + i, va ++ vb)]) b = some vb :=
    dictGet_append_left _ _ _ _ hvb
  have hvn : dictGet (st.vocab ++ [(256 + i, va ++ vb)]) (256 + i) = some (va ++ vb) := by
    rw [dictGet_append_right _ _ _
      (by rw [dictGet_eq_none_iff, hg.vocab_keys, List.mem_range]; omega)]
    rw [dictGet, if_pos rfl]
  refine ⟨?_, ?_, ?_, ?_, ?_, ?_, ?_, ?_, ?_⟩
  · show (st.vocab ++ [(256 + i, va ++ vb)]).map Prod.fst = List.range (256 + (i + 1))
    rw [List.map_append, hg.vocab_keys]
    have h256 : 256 + (i + 1) = (256 + i) + 1 := by omega
    rw [h256, List.range_succ]
    rfl
  · intro t ht
    exact dictGet_append_left _ _ _ _ (hg.vocab_base t ht)
  · intro t ht
    rcases merge_mem (a, b) (256 + i) st.indices t ht with h | rfl
    · have := hg.indices_lt t h
      omega
    · omega
  · show (st.merges ++ [((a, b), 256 + i)]).map Prod.snd = List.range' 256 (i + 1)
    rw [List.map_append, hg.merges_snd, List.range'_concat]
    simp
  · intro e he
    rcases List.mem_append.mp he with h | h
    · obtain ⟨w1, w2, w3⟩ := hg.merges_lt e h
      exact ⟨w1, w2, by omega⟩
    · rcases List.mem_singleton.mp h with rfl
      exact ⟨ha, hb, by omega⟩
  · intro e he
    rcases List.mem_append.mp he with h | h
    · obtain ⟨wa, wb, hwa, hwb, hwn⟩ := hg.merges_vocab e h
      exact ⟨wa, wb, dictGet_append_left _ _ _ _ hwa, dictGet_append_left _ _ _ _ hwb,
        dictGet_append_left _ _ _ _ hwn⟩
    · rcases List.mem_singleton.mp h with rfl
      exact ⟨va, vb, hva', hvb', hvn⟩
  · show ((st.merges ++ [((a, b), 256 + i)]).map Prod.fst).Nodup
    rw [List.map_append, List.nodup_append]
    refine ⟨hg.merges_nodup, ?_, ?_⟩
    · simp
    · intro q hq hq2
      simp only [List.map_cons, List.map_nil, List.mem_singleton] at hq2
      subst hq2
      exact hnotmem hq
  · intro e he hqadj
    rcases List.mem_append.mp he with h | h
    · rcases adjacentPairs_merge (a, b) (256 + i) st.indices e.1 hqadj with
        ⟨hmem, _⟩ | hn | hn
      · exact hg.merges_unused e h hmem
      · obtain ⟨w1, _, w3⟩ := hg.merges_lt e h
        omega
      · obtain ⟨_, w2, w3⟩ := hg.merges_lt e h
        omega
    · rcases List.mem_singleton.mp h with rfl
      rcases adjacentPairs_merge (a, b) (256 + i) st.indices (a, b) hqadj with
        ⟨_, hne⟩ | hn | hn
      · exact hne rfl
      · have hna : a = 256 + i := hn
        omega
      · have hnb : b = 256 + i := hn
        omega
  · show expand (st.vocab ++ [(256 + i, va ++ vb)])
      (merge st.indices (a, b) (256 + i)) = some B
    rw [expand_merge _ a b (256 + i) va vb hva' hvb' hvn st.indices]
    rw [expand_append st.vocab _ st.indices (fun t ht => by
      rw [dictGet_isSome_iff, hg.vocab_keys, List.mem_range]
      exact hg.indices_lt t ht)]
    exact hg.expand_eq

theorem trainLoop_good (B : List Nat) :
    ∀ (count i : Nat) (st st' : TrainState), GoodState B i st →
      trainLoop st i count = some st' → GoodState B (i + count) st' := by
  intro count
  induction count with
  | zero =>
    intro i st st' hg hloop
    have heq : st = st' := Option.some.inj hloop
    subst heq
    exact hg
  | succ c ih =>
    intro i st st' hg hloop
    rw [trainLoop] at hloop
    cases hstep : trainStep st i with
    | none =>
      rw [hstep] at hloop
      exact Option.noConfusion hloop
    | some st1 =>
      rw [hstep] at hloop
      simp only [Option.some_bind] at hloop
      have hg1 := trainStep_good B i st st1 hg hstep
      have hres := ih (i + 1) st1 st' hg1 hloop
      have heq : i + 1 + c = i + (c + 1) := by omega
      rwa [heq] at hres

theorem trainLoop_split (m n : Nat) :
    ∀ (st : TrainState) (i : Nat),
      trainLoop st i (m + n) =
        (trainLoop st i m).bind (fun st1 => trainLoop st1 (i + m) n) := by
  induction m with
  | zero =>
    intro st i
    simp [trainLoop]
  | succ m ih =>
    intro st i
    have heq : m + 1 + n = (m + n) + 1 := by omega
    rw [heq]
    simp only [trainLoop]
    cases hstep : trainStep st i with
    | none => rfl
    | some st1 =>
      simp only [Option.some_bind]
      rw [ih st1 (i + 1)]
      have heq2 : i + 1 + m = i + (m + 1) := by omega
      rw [heq2]

theorem trainLoop_vocab_persist (B : List Nat) :
    ∀ (count i : Nat) (st st' : TrainState), GoodState B i st →
      trainLoop st i count = some st' →
      ∀ t v, dictGet st.vocab t = some v → dictGet st'.vocab t = some v := by
  intro count
  induction count with
  | zero =>
    intro i st st' _ hloop t v hv
    have heq : st = st' := Option.some.inj hloop
    subst heq
    exact hv
  | succ c ih =>
    intro i st st' hg hloop t v hv
    rw [trainLoop] at hloop
    cases hstep : trainStep st i with
    | none =>
      rw [hstep] at hloop
      exact Option.noConfusion hloop
    | some st1 =>
      rw [hstep] at hloop
      simp only [Option.some_bind] at hloop
      obtain ⟨pair, va, vb, _, _, _, _, _, hst1⟩ := trainStep_eq B i st hg st1 hstep
      have hg1 := trainStep_good B i st st1 hg hstep
      apply ih (i + 1) st1 st' hg1 hloop t v
      rw [hst1]
      exact dictGet_append_left _ _ _ _ hv

theorem trainLoop_merges_extend (B : List Nat) :
    ∀ (count i : Nat) (st st' : TrainState), GoodState B i st →
      trainLoop st i count = some st' →
      ∃ rest, st'.merges = st.merges ++ rest := by
  intro count
  induction count with
  | zero =>
    intro i st st' _ hloop
    have heq : st = st' := Option.some.inj hloop
    subst heq
    exact ⟨[], by simp⟩
  | succ c ih =>
    intro i st st' hg hloop
    rw [trainLoop] at hloop
    cases hstep : trainStep st i with
    | none =>
      rw [hstep] at hloop
      exact Option.noConfusion hloop
    | some st1 =>
      rw [hstep] at hloop
      simp only [Option.some_bind] at hloop
      obtain ⟨pair, va, vb, _, _, _, _, _, hst1⟩ := trainStep_eq B i st hg st1 hstep
      have hg1 := trainStep_good B i st st1 hg hstep
      obtain ⟨rest, hrest⟩ := ih (i + 1) st1 st' hg1 hloop
      refine ⟨[(pair, 256 + i)] ++ rest, ?_⟩
      rw [hrest, hst1, List.append_assoc]

theorem adjacentPairs_nil_iff (ind : List Nat) :
    adjacentPairs ind = [] ↔ ind.length < 2 := by
  cases ind with
  | nil => simp [adjacentPairs]
  | cons x t =>
    cases t with
    | nil => simp [adjacentPairs]
    | cons y r =>
      simp only [adjacentPairs, List.length_cons]
      constructor
      · intro h
        exact List.noConfusion h
      · intro h
        omega

theorem countPairs_nil_iff (ind : List Nat) :
    countPairs ind = [] ↔ adjacentPairs ind = [] := by
  constructor
  · intro h
    by_contra hne
    obtain ⟨q, t, hq⟩ : ∃ q t, adjacentPairs ind = q :: t := by
      cases hap : adjacentPairs ind with
      | nil => exact absurd hap hne
      | cons q t => exact ⟨q, t, rfl⟩
    have hmem : q ∈ (countPairs ind).map Prod.fst :=
      (mem_countPairs_keys ind q).mpr (by rw [hq]; exact List.mem_cons_self _ _)
    rw [h] at hmem
    cases hmem
  · intro h
    rw [countPairs, h]
    rfl

theorem maxPair_eq_none_iff (c : List ((Nat × Nat) × Nat)) :
    maxPair c = none ↔ c = [] := by
  cases c with
  | nil => simp [maxPair]
  | cons e rest =>
    obtain ⟨p, c0⟩ := e
    simp [maxPair]

theorem trainStep_isSome (B : List Nat) (i : Nat) (st : TrainState)
    (hg : GoodState B i st) (hlen : 2 ≤ st.indices.length) :
    ∃ st', trainStep st i = some st' := by
  cases hmax : maxPair (countPairs st.indices) with
  | none =>
    rw [maxPair_eq_none_iff, countPairs_nil_iff, adjacentPairs_nil_iff] at hmax
    omega
  | some pair =>
    have hadj : pair ∈ adjacentPairs st.indices := by
      have hmem : pair ∈ (countPairs st.indices).map Prod.fst := by
        obtain ⟨cr, c1, c2, hdec, _, _⟩ := maxPair_decomp _ pair hmax
        rw [hdec]
        simp
      exact (mem_countPairs_keys _ pair).mp hmem
    have hcomp := mem_adjacentPairs st.indices pair hadj
    have h1 : pair.1 < 256 + i := hg.indices_lt pair.1 hcomp.1
    have h2 : pair.2 < 256 + i := hg.indices_lt pair.2 hcomp.2
    obtain ⟨va, hva⟩ : ∃ va, dictGet st.vocab pair.1 = some va := by
      rw [← Option.isSome_iff_exists, dictGet_isSome_iff, hg.vocab_keys, List.mem_range]
      omega
    obtain ⟨vb, hvb⟩ : ∃ vb, dictGet st.vocab pair.2 = some vb := by
      rw [← Option.isSome_iff_exists, dictGet_isSome_iff, hg.vocab_keys, List.mem_range]
      omega
    refine ⟨⟨merge st.indices pair (256 + i), dictInsert st.merges pair (256 + i),
      dictInsert st.vocab (256 + i) (va ++ vb)⟩, ?_⟩
    simp only [trainStep, hmax, hva, hvb]

theorem trainStep_none_iff (B : List Nat) (i : Nat) (st : TrainState)
    (hg : GoodState B i st) : trainStep st i = none ↔ st.indices.length < 2 := by
  constructor
  · intro h
    by_contra hlen
    obtain ⟨st', hsome⟩ := trainStep_isSome B i st hg (by omega)
    rw [h] at hsome
    exact Option.noConfusion hsome
  · intro hlen
    have hmax : maxPair (countPairs st.indices) = none := by
      rw [maxPair_eq_none_iff, countPairs_nil_iff, adjacentPairs_nil_iff]
      exact hlen
    simp only [trainStep, hmax]

theorem trainLoop_none_iff (B : List Nat) :
    ∀ (k i : Nat) (st : TrainState), GoodState B i st →
      (trainLoop st i k = none ↔
        ∃ j, j < k ∧ ∃ stj, trainLoop st i j = some stj ∧ stj.indices.length < 2) := by
  intro k
  induction k with
  | zero =>
    intro i st _
    constructor
    · intro h
      exact Option.noConfusion h
    · rintro ⟨j, hj, _⟩
      omega
  | succ k ih =>
    intro i st hg
    rw [trainLoop]
    cases hstep : trainStep st i with
    | none =>
      simp only [Option.none_bind]
      constructor
      · intro _
        exact ⟨0, by omega, st, rfl, (trainStep_none_iff B i st hg).mp hstep⟩
      · intro _
        trivial
    | some st1 =>
      simp only [Option.some_bind]
      have hg1 := trainStep_good B i st st1 hg hstep
      rw [ih (i + 1) st1 hg1]
      constructor
      · rintro ⟨j, hj, stj, hloop, hsmall⟩
        refine ⟨j + 1, by omega, stj, ?_, hsmall⟩
        rw [trainLoop, hstep]
        simp only [Option.some_bind]
        exact hloop
      · rintro ⟨j, hj, stj, hloop, hsmall⟩
        cases j with
        | zero =>
          have heq : st = stj := Option.some.inj hloop
          subst heq
          have hnone := (trainStep_none_iff B i st hg).mpr hsmall
          rw [hnone] at hstep
          exact Option.noConfusion hstep
        | succ j' =>
          refine ⟨j', by omega, stj, ?_, hsmall⟩
          rw [trainLoop, hstep] at hloop
          simp only [Option.some_bind] at hloop
          exact hloop

theorem train_bpe_state (corpus : List Char) (k : Nat) (params : BPETokenizerParams)
    (h : train_bpe corpus k = some params) :
    ∃ st, trainLoop (initState corpus) 0 k = some st ∧
      params = ⟨st.vocab, st.merges⟩ ∧ GoodState (strToBytes corpus) k st := by
  rw [train_bpe] at h
  cases hloop : trainLoop (initState corpus) 0 k with
  | none =>
    rw [hloop] at h
    exact Option.noConfusion h
  | some st =>
    rw [hloop] at h
    refine ⟨st, rfl, (Option.some.inj h).symm, ?_⟩
    have hres := trainLoop_good (strToBytes corpus) k 0 (initState corpus) st
      (initState_good corpus) hloop
    rwa [Nat.zero_add] at hres

/-- C3: at every training iteration the selected pair (the result of
`max(counts, key=counts.get)` over the counting pass) occurs adjacently in the
current sequence, its count is maximal among all adjacent pairs, and among
tied maxima its first adjacent occurrence is the earliest in the left-to-right
scan; the selection is a function of the current sequence, hence deterministic
for a given corpus and number of merges. -/
theorem train_bpe_selects_max_earliest (ind : List Nat) (p : Nat × Nat)
    (h : maxPair (countPairs ind) = some p) :
    p ∈ adjacentPairs ind ∧
    (∀ q ∈ adjacentPairs ind,
      countIn (adjacentPairs ind) q ≤ countIn (adjacentPairs ind) p) ∧
    (∀ q ∈ adjacentPairs ind,
      countIn (adjacentPairs ind) q = countIn (adjacentPairs ind) p → q ≠ p →
        firstIdx (adjacentPairs ind) p < firstIdx (adjacentPairs ind) q) :=
  maxPair_countPairs_spec ind p h

theorem train_bpe_selects_max_earliest_witness :
    maxPair (countPairs [1, 2, 3, 1, 2, 3]) = some (1, 2) ∧
    ((1, 2) ∈ adjacentPairs [1, 2, 3, 1, 2, 3] ∧
    (∀ q ∈ adjacentPairs [1, 2, 3, 1, 2, 3],
      countIn (adjacentPairs [1, 2, 3, 1, 2, 3]) q ≤
        countIn (adjacentPairs [1, 2, 3, 1, 2, 3]) (1, 2)) ∧
    (∀ q ∈ adjacentPairs [1, 2, 3, 1, 2, 3],
      countIn (adjacentPairs [1, 2, 3, 1, 2, 3]) q =
        countIn (adjacentPairs [1, 2, 3, 1, 2, 3]) (1, 2) → q ≠ (1, 2) →
        firstIdx (adjacentPairs [1, 2, 3, 1, 2, 3]) (1, 2) <
          firstIdx (adjacentPairs [1, 2, 3, 1, 2, 3]) q)) :=
  ⟨by decide, train_bpe_selects_max_earliest [1, 2, 3, 1, 2, 3] (1, 2) (by decide)⟩

/-- C10: after any number of successful training steps, concatenating the
vocabulary expansions of the current token sequence yields exactly the UTF-8
bytes of the original corpus. -/
theorem train_bpe_preserves_bytes (corpus : List Char) (j : Nat) (st : TrainState)
    (h : trainLoop (initState corpus) 0 j = some st) :
    expand st.vocab st.indices = some (strToBytes corpus) := by
  have hg := trainLoop_good (strToBytes corpus) j 0 (initState corpus) st
    (initState_good corpus) h
  rw [Nat.zero_add] at hg
  exact hg.expand_eq

set_option maxRecDepth 8192 in
theorem train_bpe_preserves_bytes_witness :
    trainLoop (initState ['a', 'a']) 0 1 = some demoState ∧
    expand demoState.vocab demoState.indices = some (strToBytes ['a', 'a']) :=
  ⟨by decide, train_bpe_preserves_bytes ['a', 'a'] 1 demoState (by decide)⟩

/-- C7: in every vocabulary produced by a successful training run, every byte
token `t < 256` expands to the single byte `t`; every learned merge rule
`(a, b) → n` has `vocabulary[n] = vocabulary[a] ++ vocabulary[b]`; and the
vocabulary is append-only along the run: an entry present after `j ≤ k` steps
is unchanged in the final vocabulary. -/
theorem train_bpe_vocab_invariant (corpus : List Char) (k : Nat)
    (params : BPETokenizerParams) (h : train_bpe corpus k = some params) :
    (∀ t, t < 256 → dictGet params.vocab t = some [t]) ∧
    (∀ e ∈ params.merges, ∃ va vb, dictGet params.vocab e.1.1 = some va ∧
      dictGet params.vocab e.1.2 = some vb ∧
      dictGet params.vocab e.2 = some (va ++ vb)) ∧
    (∀ j, j ≤ k → ∀ stj, trainLoop (initState corpus) 0 j = some stj →
      ∀ t v, dictGet stj.vocab t = some v → dictGet params.vocab t = some v) := by
  obtain ⟨st, hloop, hparams, hg⟩ := train_bpe_state corpus k params h
  subst hparams
  refine ⟨hg.vocab_base, hg.merges_vocab, ?_⟩
  intro j hj stj hloopj t v hv
  have hsplit := trainLoop_split j (k - j) (initState corpus) 0
  rw [show j + (k - j) = k from by omega] at hsplit
  rw [hsplit, hloopj] at hloop
  simp only [Option.some_bind] at hloop
  rw [Nat.zero_add] at hloop
  have hgj := trainLoop_good (strToBytes corpus) j 0 (initState corpus) stj
    (initState_good corpus) hloopj
  rw [Nat.zero_add] at hgj
  exact trainLoop_vocab_persist (strToBytes corpus) (k - j) j stj st hgj hloop t v hv

set_option maxRecDepth 8192 in
theorem train_bpe_vocab_invariant_witness :
    train_bpe ['a', 'a'] 1 = some demoParams ∧
    ((∀ t, t < 256 → dictGet demoParams.vocab t = some [t]) ∧
    (∀ e ∈ demoParams.merges, ∃ va vb, dictGet demoParams.vocab e.1.1 = some va ∧
      dictGet demoParams.vocab e.1.2 = some vb ∧
      dictGet demoParams.vocab e.2 = some (va ++ vb)) ∧
    (∀ j, j ≤ 1 → ∀ stj, trainLoop (initState ['a', 'a']) 0 j = some stj →
      ∀ t v, dictGet stj.vocab t = some v → dictGet demoParams.vocab t = some v)) :=
  ⟨by decide, train_bpe_vocab_invariant ['a', 'a'] 1 demoParams (by decide)⟩

/-- C8: when training succeeds with `numMerges = k`, the vocabulary has
exactly `256 + k` entries, its keys are exactly `0, …, 255 + k` in insertion
order, and the learned tokens recorded in the merge rules are exactly
`256, …, 256 + k - 1` in strictly increasing order of creation. -/
theorem train_bpe_vocab_growth (corpus : List Char) (k : Nat)
    (params : BPETokenizerParams) (h : train_bpe corpus k = some params) :
    params.vocab.length = 256 + k ∧
    params.vocab.map Prod.fst = List.range (256 + k) ∧
    params.merges.map Prod.snd = List.range' 256 k := by
  obtain ⟨st, hloop, hparams, hg⟩ := train_bpe_state corpus k params h
  subst hparams
  refine ⟨?_, hg.vocab_keys, hg.merges_snd⟩
  have hlen := congrArg List.length hg.vocab_keys
  simpa using hlen

set_option maxRecDepth 8192 in
theorem train_bpe_vocab_growth_witness :
    train_bpe ['a', 'a'] 1 = some demoParams ∧
    (demoParams.vocab.length = 256 + 1 ∧
    demoParams.vocab.map Prod.fst = List.range (256 + 1) ∧
    demoParams.merges.map Prod.snd = List.range' 256 1) :=
  ⟨by decide, train_bpe_vocab_growth ['a', 'a'] 1 demoParams (by decide)⟩

/-- C9: across a successful training run no pair is ever selected twice: the
recorded merge-rule pairs are pairwise distinct, and rules are only ever
appended — the rule list after `j ≤ k` steps is an initial segment of the
final rule list, so recording a rule never overwrites an earlier one. -/
theorem train_bpe_merge_pairs_distinct (corpus : List Char) (k : Nat)
    (params : BPETokenizerParams) (h : train_bpe corpus k = some params) :
    (params.merges.map Prod.fst).Nodup ∧
    (∀ j, j ≤ k → ∀ stj, trainLoop (initState corpus) 0 j = some stj →
      ∃ rest, params.merges = stj.merges ++ rest) := by
  obtain ⟨st, hloop, hparams, hg⟩ := train_bpe_state corpus k params h
  subst hparams
  refine ⟨hg.merges_nodup, ?_⟩
  intro j hj stj hloopj
  have hsplit := trainLoop_split j (k - j) (initState corpus) 0
  rw [show j + (k - j) = k from by omega] at hsplit
  rw [hsplit, hloopj] at hloop
  simp only [Option.some_bind] at hloop
  rw [Nat.zero_add] at hloop
  have hgj := trainLoop_good (strToBytes corpus) j 0 (initState corpus) stj
    (initState_good corpus) hloopj
  rw [Nat.zero_add] at hgj
  exact trainLoop_merges_extend (strToBytes corpus) (k - j) j stj st hgj hloop

set_option maxRecDepth 8192 in
theorem train_bpe_merge_pairs_distinct_witness :
    train_bpe ['a', 'a'] 1 = some demoParams ∧
    ((demoParams.merges.map Prod.fst).Nodup ∧
    (∀ j, j ≤ 1 → ∀ stj, trainLoop (initState ['a', 'a']) 0 j = some stj →
      ∃ rest, demoParams.merges = stj.merges ++ rest)) :=
  ⟨by decide, train_bpe_merge_pairs_distinct ['a', 'a'] 1 demoParams (by decide)⟩

/-- C2 is false on the code as claimed: `train_bpe` does not stop early when
no adjacent pair exists — on the empty corpus with one requested merge the
counting table is empty and `max(counts, key=counts.get)` raises `ValueError`
(`none` in this embedding), rather than returning the base vocabulary. -/
theorem train_bpe_empty_counterexample :
    train_bpe [] 1 = none ∧ train_bpe [] 1 ≠ some ⟨baseVocab, []⟩ :=
  ⟨rfl, by decide⟩

/-- C2 (amended): training fails (Python raises) exactly when some iteration
begins with fewer than two tokens — there is no early stop; in particular on
the empty corpus `train_bpe` returns the base 256-entry vocabulary with zero
merge rules only for `numMerges = 0` and fails for every positive
`numMerges`. -/
theorem train_bpe_no_early_stop :
    (∀ (corpus : List Char) (k : Nat),
      train_bpe corpus k = none ↔
        ∃ j, j < k ∧ ∃ st, trainLoop (initState corpus) 0 j = some st ∧
          st.indices.length < 2) ∧
    (∀ k : Nat, train_bpe ([] : List Char) k =
      if k = 0 then some ⟨baseVocab, []⟩ else none) := by
  have hiff : ∀ (corpus : List Char) (k : Nat),
      train_bpe corpus k = none ↔
        ∃ j, j < k ∧ ∃ st, trainLoop (initState corpus) 0 j = some st ∧
          st.indices.length < 2 := by
    intro corpus k
    rw [train_bpe, Option.map_eq_none']
    exact trainLoop_none_iff (strToBytes corpus) k 0 (initState corpus)
      (initState_good corpus)
  refine ⟨hiff, ?_⟩
  intro k
  cases k with
  | zero => rfl
  | succ k' =>
    rw [if_neg k'.succ_ne_zero, hiff [] (k' + 1)]
    exact ⟨0, by omega, initState [], rfl, by decide⟩

/-- C1: for every string and every tokenizer built from a successful training
run, decoding the encoding returns the original string: the vocabulary
expansions of the encoded tokens concatenate to the string's UTF-8 bytes, and
UTF-8 decoding restores the string. -/
theorem bpe_roundtrip (corpus : List Char) (k : Nat) (params : BPETokenizerParams)
    (s : List Char) (h : train_bpe corpus k = some params) :
    decode params (encode params s) = Except.ok s := by
  obtain ⟨st, hloop, hparams, hg⟩ := train_bpe_state corpus k params h
  subst hparams
  have hbytes : ∀ t ∈ strToBytes s, dictGet st.vocab t = some [t] :=
    fun t ht => hg.vocab_base t (strToBytes_lt_256 s t ht)
  have hstart : expand st.vocab (strToBytes s) = some (strToBytes s) :=
    expand_self _ _ hbytes
  have hfold : ∀ (rules : List ((Nat × Nat) × Nat)),
      (∀ e ∈ rules, ∃ va vb, dictGet st.vocab e.1.1 = some va ∧
        dictGet st.vocab e.1.2 = some vb ∧ dictGet st.vocab e.2 = some (va ++ vb)) →
      ∀ ind, expand st.vocab ind = some (strToBytes s) →
        expand st.vocab (List.foldl (fun acc e => merge acc e.1 e.2) ind rules) =
          some (strToBytes s) := by
    intro rules
    induction rules with
    | nil =>
      intro _ ind hind
      exact hind
    | cons e rest ih =>
      intro hrules ind hind
      rw [List.foldl_cons]
      obtain ⟨va, vb, hva, hvb, hvn⟩ := hrules e (List.mem_cons_self _ _)
      apply ih (fun e' he' => hrules e' (List.mem_cons_of_mem _ he'))
      obtain ⟨⟨a, b⟩, n⟩ := e
      rw [expand_merge st.vocab a b n va vb hva hvb hvn ind]
      exact hind
  have hexp : expand st.vocab (encode ⟨st.vocab, st.merges⟩ s) = some (strToBytes s) :=
    hfold st.merges hg.merges_vocab (strToBytes s) hstart
  rw [expand] at hexp
  cases hlk : lookupAll st.vocab (encode ⟨st.vocab, st.merges⟩ s) with
  | none =>
    rw [hlk] at hexp
    exact Option.noConfusion hexp
  | some bls =>
    rw [hlk] at hexp
    have hflat : bls.flatten = strToBytes s := Option.some.inj hexp
    simp only [decode, hlk, hflat, utf8Decode_strToBytes s]

set_option maxRecDepth 8192 in
theorem bpe_roundtrip_witness :
    train_bpe ['a', 'a'] 1 = some demoParams ∧
    decode demoParams (encode demoParams ['a', 'b']) = Except.ok ['a', 'b'] :=
  ⟨by decide, bpe_roundtrip ['a', 'a'] 1 demoParams ['a', 'b'] (by decide)⟩
